import Mathlib

set_option linter.unusedVariables false

/-
Verification of `mtgjson5/utils.py`.

We give a shallow embedding of the utility functions of the repository and
prove the specified properties about them.  Python runtime values that can
flow through `sort_internal_lists` and `parallel_call` are modelled by the
inductive type `PyVal` (integers, strings, lists, sets, dicts with string
keys).  The Python operators `==` and `<` on such values are modelled by `pyEq` and
`pyLt`; `pyLt` returns `none` where CPython raises `TypeError` (comparison
of unrelated types), which is the failure mode of `sorted`.
-/

inductive PyVal where
  | int (n : Int)
  | str (s : String)
  | list (xs : List PyVal)
  | set (xs : List PyVal)
  | dict (es : List (String × PyVal))

/-
Python `==`.  Lists compare elementwise, sets compare as mutual membership
(`s == t` iff `s <= t` and `t <= s`), dicts compare as equal key sets with
equal values (order-insensitive).  Values of different kinds are unequal.
`pyMem x ys` is `x in ys` (membership up to `==`); the `Rev` variants scan
the left-hand structure, so that every recursive `pyEq` call keeps its first
argument inside the original left operand.
-/

mutual

def pyEq : PyVal → PyVal → Bool
  | .int m, .int n => m == n
  | .str a, .str b => a == b
  | .list xs, .list ys => pyEqL xs ys
  | .set xs, .set ys => pyMemAll xs ys && pyMemRevAll xs ys
  | .dict es, .dict fs => pyEntsSub es fs && pyEntsRevSub es fs
  | _, _ => false
termination_by a b => (sizeOf a, sizeOf b)

def pyEqL : List PyVal → List PyVal → Bool
  | [], [] => true
  | x :: xs, y :: ys => pyEq x y && pyEqL xs ys
  | _, _ => false
termination_by a b => (sizeOf a, sizeOf b)

def pyMem : PyVal → List PyVal → Bool
  | _, [] => false
  | x, y :: ys => pyEq x y || pyMem x ys
termination_by a b => (sizeOf a, sizeOf b)

def pyMemAll : List PyVal → List PyVal → Bool
  | [], _ => true
  | x :: xs, ys => pyMem x ys && pyMemAll xs ys
termination_by a b => (sizeOf a, sizeOf b)

def pyMemRev : List PyVal → PyVal → Bool
  | [], _ => false
  | x :: xs, w => pyEq x w || pyMemRev xs w
termination_by a b => (sizeOf a, sizeOf b)

def pyMemRevAll : List PyVal → List PyVal → Bool
  | _, [] => true
  | xs, w :: ws => pyMemRev xs w && pyMemRevAll xs ws
termination_by a b => (sizeOf a, sizeOf b)

def pyEntMem : String → PyVal → List (String × PyVal) → Bool
  | _, _, [] => false
  | k, v, (a, u) :: fs => (k == a && pyEq v u) || pyEntMem k v fs
termination_by _ v fs => (sizeOf v, sizeOf fs)

def pyEntsSub : List (String × PyVal) → List (String × PyVal) → Bool
  | [], _ => true
  | (k, v) :: es, fs => pyEntMem k v fs && pyEntsSub es fs
termination_by a b => (sizeOf a, sizeOf b)

def pyEntMemRev : List (String × PyVal) → String → PyVal → Bool
  | [], _, _ => false
  | (a, u) :: es, k, w => (a == k && pyEq u w) || pyEntMemRev es k w
termination_by a _ w => (sizeOf a, sizeOf w)

def pyEntsRevSub : List (String × PyVal) → List (String × PyVal) → Bool
  | _, [] => true
  | es, (k, w) :: fs => pyEntMemRev es k w && pyEntsRevSub es fs
termination_by a b => (sizeOf a, sizeOf b)

end

/-
Python `<`.  Integers and strings by their natural order; lists
lexicographically (first non-`==` position decides, else length); sets by
proper subset; every other combination (in particular two dicts, or values
of different kinds) raises `TypeError`, modelled as `none`.
-/

mutual

def pyLt : PyVal → PyVal → Option Bool
  | .int m, .int n => some (decide (m < n))
  | .str a, .str b => some (decide (a < b))
  | .list xs, .list ys => pyLtL xs ys
  | .set xs, .set ys => some (pyMemAll xs ys && !pyMemRevAll xs ys)
  | _, _ => none
termination_by a b => (sizeOf a, sizeOf b)

def pyLtL : List PyVal → List PyVal → Option Bool
  | [], [] => some false
  | [], _ :: _ => some true
  | _ :: _, [] => some false
  | x :: xs, y :: ys => if pyEq x y then pyLtL xs ys else pyLt x y
termination_by a b => (sizeOf a, sizeOf b)

end

/- Two values are orderable when Python `<` does not raise between them. -/
def orderable (x y : PyVal) : Prop := (pyLt x y).isSome

/-
Model of CPython `sorted`.  `sorted` performs a stable comparison sort using
only `<` on the elements and raises `TypeError` exactly when it evaluates
`<` on a non-orderable pair; we model it as a stable insertion sort in the
`Option` monad, `none` standing for the raised error.  `insertO x l` places
`x` before the first element `y` of `l` with `x < y`.
-/

def insertO (x : PyVal) : List PyVal → Option (List PyVal)
  | [] => some [x]
  | y :: ys =>
    match pyLt x y with
    | none => none
    | some true => some (x :: y :: ys)
    | some false => (insertO x ys).map (fun l => y :: l)

def sortGo : List PyVal → List PyVal → Option (List PyVal)
  | acc, [] => some acc
  | acc, x :: xs =>
    match insertO x acc with
    | none => none
    | some acc2 => sortGo acc2 xs

def sortedO (l : List PyVal) : Option (List PyVal) := sortGo [] l

/-
Embedding of `sort_internal_lists` (utils.py, lines 158-170): a dict has
each of its values rewritten in place (keys and entry order untouched), a
list or a set is replaced by `sorted(list(data))`, anything else is
returned unchanged.  Note that the function does not recurse into the
elements of a list or set.
-/

mutual

def sort_internal_lists : PyVal → Option PyVal
  | .dict es => (sortEntries es).map PyVal.dict
  | .list xs => (sortedO xs).map PyVal.list
  | .set xs => (sortedO xs).map PyVal.list
  | .int n => some (.int n)
  | .str s => some (.str s)

def sortEntries : List (String × PyVal) → Option (List (String × PyVal))
  | [] => some []
  | (k, v) :: es =>
    match sort_internal_lists v, sortEntries es with
    | some w, some rest => some ((k, w) :: rest)
    | _, _ => none

end

/-
The collections that `sort_internal_lists` actually sorts: the input itself
when it is a list or a set, and, recursively through dict values, any list
or set sitting under a chain of dicts.
-/

mutual

def sortableUnits : PyVal → List (List PyVal)
  | .dict es => unitsOfEntries es
  | .list xs => [xs]
  | .set xs => [xs]
  | .int _ => []
  | .str _ => []

def unitsOfEntries : List (String × PyVal) → List (List PyVal)
  | [] => []
  | (_, v) :: es => sortableUnits v ++ unitsOfEntries es

end

/-
Embedding of `parallel_call` (utils.py, lines 119-155).  `gevent.pool.Pool
.map` distributes the calls over at most `pool_size` greenlets and returns
the per-item results in the order of `args` (its documented contract),
independently of completion order; functionally it is `List.map`.  A Python
callable of arbitrary arity is modelled as a function on its list of
positional arguments, so `function [a]` is the unary call `function(a)`.
`repeatable_args = none` is Python `None`; the code tests the parameter for
truthiness (`if repeatable_args:`), so `some []` takes the same branch as
`none`.  A `none` result models a raised `TypeError` (starmap over a
non-iterable element, or folding results of the wrong shape).
-/

def starArgs : PyVal → Option (List PyVal)
  | .list xs => some xs
  | .set xs => some xs
  | .str s => some (s.data.map (fun c => .str (String.mk [c])))
  | .dict es => some (es.map (fun e => .str e.1))
  | .int _ => none

def asListElems : PyVal → Option (List PyVal)
  | .list xs => some xs
  | _ => none

def asDictEntries : PyVal → Option (List (String × PyVal))
  | .dict es => some es
  | _ => none

def lookupKey (k : String) : List (String × PyVal) → Option PyVal
  | [] => none
  | (a, v) :: es => if a == k then some v else lookupKey k es

/-
`collections.ChainMap(*results)` looks a key up in the first member mapping
that contains it, and `dict(...)` materialises the keys in order of first
appearance while scanning the member mappings from the last to the first.
-/

def chainLookup (k : String) : List (List (String × PyVal)) → Option PyVal
  | [] => none
  | m :: ms =>
    match lookupKey k m with
    | some v => some v
    | none => chainLookup k ms

def dedupKeys : List String → List String
  | [] => []
  | k :: ks => k :: (dedupKeys ks).filter (fun a => a ≠ k)

def dict_of_chainMap (ms : List (List (String × PyVal))) : List (String × PyVal) :=
  (dedupKeys ((ms.reverse.map (fun m => m.map Prod.fst)).flatten)).filterMap
    (fun k => (chainLookup k ms).map (fun v => (k, v)))

def parallel_call (function : List PyVal → PyVal) (args : List PyVal)
    (repeatable_args : Option (List PyVal)) (fold_list : Bool)
    (fold_dict : Bool) (force_starmap : Bool) (pool_size : Nat) :
    Option PyVal :=
  let resultsO : Option (List PyVal) :=
    match repeatable_args with
    | some (r :: rs) => some (args.map (fun a => function (a :: r :: rs)))
    | _ =>
      if force_starmap then
        args.mapM (fun a => (starArgs a).map function)
      else
        some (args.map (fun a => function [a]))
  match resultsO with
  | none => none
  | some results =>
    if fold_list then
      (results.mapM asListElems).map (fun ls => PyVal.list ls.flatten)
    else if fold_dict then
      (results.mapM asDictEntries).map
        (fun ds => PyVal.dict (dict_of_chainMap ds))
    else
      some (PyVal.list results)

/-
Embedding of `send_push_notification` (utils.py, lines 224-260).  The
Pushover section of the configuration file supplies the application token
and a comma-separated list of user tokens; empty entries are dropped by
`filter(None, ...)`.  The network is modelled by `post`, giving the
`response.ok` outcome of posting to one user.  The result records the
aggregate boolean the function returns together with the list of users a
POST request was issued for, in order.
-/

structure PushoverConfig where
  app_token : String
  user_tokens : String

def splitCommaAux : List Char → List Char → List String
  | [], acc => [String.mk acc.reverse]
  | c :: cs, acc =>
    if c = ',' then String.mk acc.reverse :: splitCommaAux cs []
    else splitCommaAux cs (c :: acc)

def splitComma (s : String) : List String := splitCommaAux s.data []

def pushover_users (cfg : PushoverConfig) : List String :=
  (splitComma cfg.user_tokens).filter (fun u => u ≠ "")

def send_loop (post : String → Bool) : List String → Bool → Bool × List String
  | [], acc => (acc, [])
  | u :: us, acc =>
    let ok := post u
    let rest := send_loop post us (acc && ok)
    (rest.1, u :: rest.2)

def send_push_notification (cfg : PushoverConfig) (post : String → Bool) :
    Bool × List String :=
  let users := pushover_users cfg
  if cfg.app_token = "" then (false, [])
  else if users = [] then (false, [])
  else send_loop post users true

/-
Embedding of `get_file_hash` (utils.py, lines 187-208).  The configured
digest (`consts.HASH_TO_GENERATE.copy()`) is an abstract streaming hash; a
file is `none` when `is_file()` fails, otherwise its byte contents.  The
read loop feeds the contents to `update` in blocks of `block_size` bytes
(`read` returns at most `block_size` bytes and the empty chunk at end of
file stops the loop).  The second component records the warnings logged.
-/

structure HashAlgo where
  State : Type
  init : State
  update : State → List Nat → State
  hexdigest : State → String

def hashLoop (alg : HashAlgo) (bs : Nat) : alg.State → List Nat → alg.State
  | s, [] => s
  | s, c :: cs =>
    if bs = 0 then s
    else hashLoop alg bs (alg.update s ((c :: cs).take bs)) ((c :: cs).drop bs)
termination_by s l => l.length

def chunksOf (bs : Nat) : List Nat → List (List Nat)
  | [] => []
  | c :: cs =>
    if bs = 0 then [[]]
    else (c :: cs).take bs :: chunksOf bs ((c :: cs).drop bs)
termination_by l => l.length

def get_file_hash (alg : HashAlgo) (file_to_hash : Option (List Nat))
    (block_size : Nat) : String × List String :=
  match file_to_hash with
  | none => ("", ["Unable to find file, no hashes generated"])
  | some content =>
    (alg.hexdigest (hashLoop alg block_size alg.init content), [])

/-
Concrete Python callables used to instantiate the generic theorems:
`pyIdentity` is `lambda x: x` under the list-of-positional-arguments
convention, `pyDouble` is `lambda x: x * 2` on integers, `pyElems` and
`pyEntries` read the payload of a list or dict value.
-/

def pyIdentity : List PyVal → PyVal
  | [v] => v
  | l => PyVal.list l

def pyDouble : List PyVal → PyVal
  | [PyVal.int n] => PyVal.int (2 * n)
  | _ => PyVal.int 0

def pyElems : PyVal → List PyVal
  | .list xs => xs
  | .set xs => xs
  | _ => []

def pyEntries : PyVal → List (String × PyVal)
  | .dict es => es
  | _ => []

/-
A concrete streaming digest used to instantiate the hashing theorems: the
state accumulates the bytes seen and the hex digest reports how many.
-/

def concatHash : HashAlgo where
  State := List Nat
  init := []
  update := fun s c => s ++ c
  hexdigest := fun s => toString s.length

/-
Basic properties of the modelled Python comparisons.  `pyLe x y` is the
order in which `sorted` leaves elements: `x` may stay before `y` unless
`y < x`.
-/

def pyLe (x y : PyVal) : Prop := pyLt y x ≠ some true

theorem pyMem_iff (x : PyVal) (ys : List PyVal) :
    pyMem x ys = true ↔ ∃ y ∈ ys, pyEq x y = true := by
  induction ys with
  | nil => simp [pyMem]
  | cons y ys ih => simp [pyMem, ih]

theorem pyMemRev_iff (xs : List PyVal) (w : PyVal) :
    pyMemRev xs w = true ↔ ∃ x ∈ xs, pyEq x w = true := by
  induction xs with
  | nil => simp [pyMemRev]
  | cons x xs ih => simp [pyMemRev, ih]

theorem pyMemAll_iff (xs ys : List PyVal) :
    pyMemAll xs ys = true ↔ ∀ x ∈ xs, pyMem x ys = true := by
  induction xs with
  | nil => simp [pyMemAll]
  | cons x xs ih => simp [pyMemAll, ih]

theorem pyMemRevAll_iff (xs ws : List PyVal) :
    pyMemRevAll xs ws = true ↔ ∀ w ∈ ws, pyMemRev xs w = true := by
  induction ws with
  | nil => simp [pyMemRevAll]
  | cons w ws ih => simp [pyMemRevAll, ih]

theorem pyEntMem_iff (k : String) (v : PyVal) (fs : List (String × PyVal)) :
    pyEntMem k v fs = true ↔ ∃ f ∈ fs, k = f.1 ∧ pyEq v f.2 = true := by
  induction fs with
  | nil => simp [pyEntMem]
  | cons f fs ih =>
    obtain ⟨a, u⟩ := f
    simp [pyEntMem, ih]

theorem pyEntMemRev_iff (es : List (String × PyVal)) (k : String) (w : PyVal) :
    pyEntMemRev es k w = true ↔ ∃ e ∈ es, e.1 = k ∧ pyEq e.2 w = true := by
  induction es with
  | nil => simp [pyEntMemRev]
  | cons e es ih =>
    obtain ⟨a, u⟩ := e
    simp [pyEntMemRev, ih]

theorem pyEntsSub_iff (es fs : List (String × PyVal)) :
    pyEntsSub es fs = true ↔ ∀ e ∈ es, pyEntMem e.1 e.2 fs = true := by
  induction es with
  | nil => simp [pyEntsSub]
  | cons e es ih =>
    obtain ⟨k, v⟩ := e
    simp [pyEntsSub, ih]

theorem pyEntsRevSub_iff (es fs : List (String × PyVal)) :
    pyEntsRevSub es fs = true ↔ ∀ f ∈ fs, pyEntMemRev es f.1 f.2 = true := by
  induction fs with
  | nil => simp [pyEntsRevSub]
  | cons f fs ih =>
    obtain ⟨k, w⟩ := f
    simp [pyEntsRevSub, ih]

/-
Symmetry: Python `==` on the modelled values is symmetric, with `pyMem` and
its `Rev` mirror describing the same membership relation.
-/

theorem beq_symm {A : Type} [BEq A] [LawfulBEq A] (a b : A) : (a == b) = (b == a) := by
  rw [Bool.eq_iff_iff]
  simp only [beq_iff_eq]
  exact ⟨Eq.symm, Eq.symm⟩

mutual

theorem pyEq_symm : ∀ (x y : PyVal), pyEq x y = pyEq y x
  | x, y => by
    cases x <;> cases y <;> simp only [pyEq]
    case int.int m n => exact beq_symm m n
    case str.str a b => exact beq_symm a b
    case list.list xs ys => exact pyEqL_symm xs ys
    case set.set xs ys =>
      rw [pyMemAll_symm xs ys, pyMemAll_symm ys xs]
      exact Bool.and_comm _ _
    case dict.dict es fs =>
      rw [pyEntsSub_symm es fs, pyEntsSub_symm fs es]
      exact Bool.and_comm _ _
termination_by x y => sizeOf x + sizeOf y

theorem pyEqL_symm : ∀ (xs ys : List PyVal), pyEqL xs ys = pyEqL ys xs
  | [], [] => by simp [pyEqL]
  | [], _ :: _ => by simp [pyEqL]
  | _ :: _, [] => by simp [pyEqL]
  | x :: xs, y :: ys => by
    simp only [pyEqL]
    rw [pyEq_symm x y, pyEqL_symm xs ys]
termination_by xs ys => sizeOf xs + sizeOf ys

theorem pyMem_symm : ∀ (x : PyVal) (ys : List PyVal), pyMem x ys = pyMemRev ys x
  | x, [] => by simp [pyMem, pyMemRev]
  | x, y :: ys => by
    simp only [pyMem, pyMemRev]
    rw [pyEq_symm x y, pyMem_symm x ys]
termination_by x ys => sizeOf x + sizeOf ys

theorem pyMemAll_symm : ∀ (xs ys : List PyVal), pyMemAll xs ys = pyMemRevAll ys xs
  | [], ys => by simp [pyMemAll, pyMemRevAll]
  | x :: xs, ys => by
    simp only [pyMemAll, pyMemRevAll]
    rw [pyMem_symm x ys, pyMemAll_symm xs ys]
termination_by xs ys => sizeOf xs + sizeOf ys

theorem pyEntMem_symm : ∀ (k : String) (v : PyVal) (fs : List (String × PyVal)),
    pyEntMem k v fs = pyEntMemRev fs k v
  | k, v, [] => by simp [pyEntMem, pyEntMemRev]
  | k, v, (a, u) :: fs => by
    simp only [pyEntMem, pyEntMemRev]
    rw [pyEq_symm v u, pyEntMem_symm k v fs]
    rw [beq_symm k a]
termination_by k v fs => sizeOf v + sizeOf fs

theorem pyEntsSub_symm : ∀ (es fs : List (String × PyVal)),
    pyEntsSub es fs = pyEntsRevSub fs es
  | [], fs => by simp [pyEntsSub, pyEntsRevSub]
  | (k, v) :: es, fs => by
    simp only [pyEntsSub, pyEntsRevSub]
    rw [pyEntMem_symm k v fs, pyEntsSub_symm es fs]
termination_by es fs => sizeOf es + sizeOf fs

end

/-
Transitivity of Python `==` on the modelled values, together with the
transport lemmas for `==`-membership it needs.
-/

mutual

theorem pyEq_trans : ∀ (x y z : PyVal),
    pyEq x y = true → pyEq y z = true → pyEq x z = true
  | x, y, z => by
    intro h1 h2
    cases x <;> cases y <;> simp only [pyEq] at h1 <;> try exact (Bool.false_ne_true h1).elim
    · -- integers
      cases z <;> simp only [pyEq] at h2 <;> try exact (Bool.false_ne_true h2).elim
      simp only [pyEq, beq_iff_eq] at h1 h2 ⊢
      exact h1.trans h2
    · -- strings
      cases z <;> simp only [pyEq] at h2 <;> try exact (Bool.false_ne_true h2).elim
      simp only [pyEq, beq_iff_eq] at h1 h2 ⊢
      exact h1.trans h2
    · -- lists
      rename_i xs ys
      cases z <;> simp only [pyEq] at h2 <;> try exact (Bool.false_ne_true h2).elim
      rename_i zs
      simp only [pyEq]
      exact pyEqL_trans xs ys zs h1 h2
    · -- sets
      rename_i xs ys
      cases z <;> simp only [pyEq] at h2 <;> try exact (Bool.false_ne_true h2).elim
      rename_i zs
      simp only [Bool.and_eq_true] at h1 h2
      simp only [pyEq, Bool.and_eq_true]
      rw [← pyMemAll_symm ys xs] at h1
      rw [← pyMemAll_symm zs ys] at h2
      rw [← pyMemAll_symm zs xs]
      exact ⟨pyMemAll_trans xs ys zs h1.1 h2.1,
             pyMemAll_trans zs ys xs h2.2 h1.2⟩
    · -- dicts
      rename_i es fs
      cases z <;> simp only [pyEq] at h2 <;> try exact (Bool.false_ne_true h2).elim
      rename_i gs
      simp only [Bool.and_eq_true] at h1 h2
      simp only [pyEq, Bool.and_eq_true]
      rw [← pyEntsSub_symm fs es] at h1
      rw [← pyEntsSub_symm gs fs] at h2
      rw [← pyEntsSub_symm gs es]
      exact ⟨pyEntsSub_trans es fs gs h1.1 h2.1,
             pyEntsSub_trans gs fs es h2.2 h1.2⟩
termination_by x y z => sizeOf x + sizeOf y + sizeOf z

theorem pyEqL_trans : ∀ (xs ys zs : List PyVal),
    pyEqL xs ys = true → pyEqL ys zs = true → pyEqL xs zs = true
  | [], ys, zs => by
    intro h1 h2
    cases ys <;> simp only [pyEqL] at h1 <;> try exact (Bool.false_ne_true h1).elim
    cases zs <;> simp only [pyEqL] at h2 <;> try exact (Bool.false_ne_true h2).elim
    simp [pyEqL]
  | x :: xs, ys, zs => by
    intro h1 h2
    cases ys <;> simp only [pyEqL] at h1 <;> try exact (Bool.false_ne_true h1).elim
    rename_i y ys
    cases zs <;> simp only [pyEqL] at h2 <;> try exact (Bool.false_ne_true h2).elim
    rename_i z zs
    simp only [Bool.and_eq_true] at h1 h2
    simp only [pyEqL, Bool.and_eq_true]
    exact ⟨pyEq_trans x y z h1.1 h2.1, pyEqL_trans xs ys zs h1.2 h2.2⟩
termination_by xs ys zs => sizeOf xs + sizeOf ys + sizeOf zs

theorem pyMem_eqtrans : ∀ (x y : PyVal) (zs : List PyVal),
    pyEq x y = true → pyMem y zs = true → pyMem x zs = true
  | x, y, [] => by intro _ h2; simp [pyMem] at h2
  | x, y, z :: zs => by
    intro h1 h2
    simp only [pyMem, Bool.or_eq_true] at h2 ⊢
    rcases h2 with h2 | h2
    · exact Or.inl (pyEq_trans x y z h1 h2)
    · exact Or.inr (pyMem_eqtrans x y zs h1 h2)
termination_by x y zs => sizeOf x + sizeOf y + sizeOf zs

theorem pyMem_chain : ∀ (x : PyVal) (ys zs : List PyVal),
    pyMem x ys = true → pyMemAll ys zs = true → pyMem x zs = true
  | x, [], zs => by intro h1 _; simp [pyMem] at h1
  | x, y :: ys, zs => by
    intro h1 h2
    simp only [pyMem, Bool.or_eq_true] at h1
    simp only [pyMemAll, Bool.and_eq_true] at h2
    rcases h1 with h1 | h1
    · exact pyMem_eqtrans x y zs h1 h2.1
    · exact pyMem_chain x ys zs h1 h2.2
termination_by x ys zs => sizeOf x + sizeOf ys + sizeOf zs

theorem pyMemAll_trans : ∀ (xs ys zs : List PyVal),
    pyMemAll xs ys = true → pyMemAll ys zs = true → pyMemAll xs zs = true
  | [], ys, zs => by intro _ _; simp [pyMemAll]
  | x :: xs, ys, zs => by
    intro h1 h2
    simp only [pyMemAll, Bool.and_eq_true] at h1 ⊢
    exact ⟨pyMem_chain x ys zs h1.1 h2, pyMemAll_trans xs ys zs h1.2 h2⟩
termination_by xs ys zs => sizeOf xs + sizeOf ys + sizeOf zs

theorem pyEntMem_eqtrans : ∀ (k : String) (v : PyVal) (a : String) (u : PyVal)
    (gs : List (String × PyVal)), (k == a) = true → pyEq v u = true →
    pyEntMem a u gs = true → pyEntMem k v gs = true
  | k, v, a, u, [] => by intro _ _ h3; simp [pyEntMem] at h3
  | k, v, a, u, (b, w) :: gs => by
    intro h1 h2 h3
    simp only [pyEntMem, Bool.or_eq_true, Bool.and_eq_true] at h3 ⊢
    rcases h3 with ⟨h3, h4⟩ | h3
    · refine Or.inl ⟨?_, pyEq_trans v u w h2 h4⟩
      simp only [beq_iff_eq] at h1 h3 ⊢
      exact h1.trans h3
    · exact Or.inr (pyEntMem_eqtrans k v a u gs h1 h2 h3)
termination_by k v a u gs => sizeOf v + sizeOf u + sizeOf gs

theorem pyEntMem_chain : ∀ (k : String) (v : PyVal)
    (fs gs : List (String × PyVal)),
    pyEntMem k v fs = true → pyEntsSub fs gs = true → pyEntMem k v gs = true
  | k, v, [], gs => by intro h1 _; simp [pyEntMem] at h1
  | k, v, (a, u) :: fs, gs => by
    intro h1 h2
    simp only [pyEntMem, Bool.or_eq_true, Bool.and_eq_true] at h1
    simp only [pyEntsSub, Bool.and_eq_true] at h2
    rcases h1 with ⟨h1, h3⟩ | h1
    · exact pyEntMem_eqtrans k v a u gs h1 h3 h2.1
    · exact pyEntMem_chain k v fs gs h1 h2.2
termination_by k v fs gs => sizeOf v + sizeOf fs + sizeOf gs

theorem pyEntsSub_trans : ∀ (es fs gs : List (String × PyVal)),
    pyEntsSub es fs = true → pyEntsSub fs gs = true → pyEntsSub es gs = true
  | [], fs, gs => by intro _ _; simp [pyEntsSub]
  | (k, v) :: es, fs, gs => by
    intro h1 h2
    simp only [pyEntsSub, Bool.and_eq_true] at h1 ⊢
    exact ⟨pyEntMem_chain k v fs gs h1.1 h2, pyEntsSub_trans es fs gs h1.2 h2⟩
termination_by es fs gs => sizeOf es + sizeOf fs + sizeOf gs

end

/-
Congruence: `==`-equal values behave identically in further `==` and `<`
comparisons.  This justifies the skip-equal step of Python list comparison.
-/

theorem pyEq_congr_l (a b z : PyVal) (h : pyEq a b = true) :
    pyEq a z = pyEq b z := by
  rw [Bool.eq_iff_iff]
  constructor
  · intro h2
    refine pyEq_trans b a z ?_ h2
    rw [pyEq_symm]; exact h
  · intro h2
    exact pyEq_trans a b z h h2

theorem pyEq_congr_r (a b z : PyVal) (h : pyEq a b = true) :
    pyEq z a = pyEq z b := by
  rw [Bool.eq_iff_iff]
  constructor
  · intro h2
    exact pyEq_trans z a b h2 h
  · intro h2
    refine pyEq_trans z b a h2 ?_
    rw [pyEq_symm]; exact h

mutual

theorem pyLt_congr_left : ∀ (a b z : PyVal), pyEq a b = true →
    pyLt a z = pyLt b z
  | a, b, z => by
    intro h
    cases a <;> cases b <;> simp only [pyEq] at h <;>
      try exact (Bool.false_ne_true h).elim
    · simp only [beq_iff_eq] at h; subst h; rfl
    · simp only [beq_iff_eq] at h; subst h; rfl
    · rename_i as bs
      cases z <;> simp only [pyLt]
      rename_i zs
      exact pyLtL_congr_left as bs zs h
    · rename_i as bs
      rw [Bool.and_eq_true] at h
      have sub1 : pyMemAll as bs = true := h.1
      have sub2 : pyMemAll bs as = true := by
        rw [pyMemAll_symm bs as]; exact h.2
      cases z <;> simp only [pyLt]
      rename_i zs
      have e1 : pyMemAll as zs = pyMemAll bs zs := by
        rw [Bool.eq_iff_iff]
        exact ⟨fun h2 => pyMemAll_trans bs as zs sub2 h2,
               fun h2 => pyMemAll_trans as bs zs sub1 h2⟩
      have e2 : pyMemRevAll as zs = pyMemRevAll bs zs := by
        rw [← pyMemAll_symm zs as, ← pyMemAll_symm zs bs, Bool.eq_iff_iff]
        exact ⟨fun h2 => pyMemAll_trans zs as bs h2 sub1,
               fun h2 => pyMemAll_trans zs bs as h2 sub2⟩
      rw [e1, e2]
    · cases z <;> simp only [pyLt]
termination_by a b z => sizeOf a + sizeOf b + sizeOf z

theorem pyLtL_congr_left : ∀ (as bs zs : List PyVal), pyEqL as bs = true →
    pyLtL as zs = pyLtL bs zs
  | as, bs, zs => by
    intro h
    cases as <;> cases bs <;> simp only [pyEqL] at h <;>
      try exact (Bool.false_ne_true h).elim
    · rfl
    · rename_i a as b bs
      rw [Bool.and_eq_true] at h
      cases zs with
      | nil => simp only [pyLtL]
      | cons z zs =>
        simp only [pyLtL]
        rw [pyEq_congr_l a b z h.1]
        by_cases hz : pyEq b z = true
        · simp only [hz, if_true]
          exact pyLtL_congr_left as bs zs h.2
        · simp only [Bool.not_eq_true] at hz
          simp only [hz, Bool.false_eq_true, if_false]
          exact pyLt_congr_left a b z h.1
termination_by as bs zs => sizeOf as + sizeOf bs + sizeOf zs

end

mutual

theorem pyLt_congr_right : ∀ (a b z : PyVal), pyEq a b = true →
    pyLt z a = pyLt z b
  | a, b, z => by
    intro h
    cases a <;> cases b <;> simp only [pyEq] at h <;>
      try exact (Bool.false_ne_true h).elim
    · simp only [beq_iff_eq] at h; subst h; rfl
    · simp only [beq_iff_eq] at h; subst h; rfl
    · rename_i as bs
      cases z <;> simp only [pyLt]
      rename_i zs
      exact pyLtL_congr_right as bs zs h
    · rename_i as bs
      rw [Bool.and_eq_true] at h
      have sub1 : pyMemAll as bs = true := h.1
      have sub2 : pyMemAll bs as = true := by
        rw [pyMemAll_symm bs as]; exact h.2
      cases z <;> simp only [pyLt]
      rename_i zs
      have e1 : pyMemAll zs as = pyMemAll zs bs := by
        rw [Bool.eq_iff_iff]
        exact ⟨fun h2 => pyMemAll_trans zs as bs h2 sub1,
               fun h2 => pyMemAll_trans zs bs as h2 sub2⟩
      have e2 : pyMemRevAll zs as = pyMemRevAll zs bs := by
        rw [← pyMemAll_symm as zs, ← pyMemAll_symm bs zs, Bool.eq_iff_iff]
        exact ⟨fun h2 => pyMemAll_trans bs as zs sub2 h2,
               fun h2 => pyMemAll_trans as bs zs sub1 h2⟩
      rw [e1, e2]
    · cases z <;> simp only [pyLt]
termination_by a b z => sizeOf a + sizeOf b + sizeOf z

theorem pyLtL_congr_right : ∀ (as bs zs : List PyVal), pyEqL as bs = true →
    pyLtL zs as = pyLtL zs bs
  | as, bs, zs => by
    intro h
    cases as <;> cases bs <;> simp only [pyEqL] at h <;>
      try exact (Bool.false_ne_true h).elim
    · rfl
    · rename_i a as b bs
      rw [Bool.and_eq_true] at h
      cases zs with
      | nil => simp only [pyLtL]
      | cons z zs =>
        simp only [pyLtL]
        rw [pyEq_congr_r a b z h.1]
        by_cases hz : pyEq z b = true
        · simp only [hz, if_true]
          exact pyLtL_congr_right as bs zs h.2
        · simp only [Bool.not_eq_true] at hz
          simp only [hz, Bool.false_eq_true, if_false]
          exact pyLt_congr_right a b z h.1
termination_by as bs zs => sizeOf as + sizeOf bs + sizeOf zs

end

/-
Orderability is symmetric: `x < y` raises exactly when `y < x` raises.
-/

mutual

theorem pyLt_isSome_symm : ∀ (x y : PyVal),
    (pyLt x y).isSome = (pyLt y x).isSome
  | x, y => by
    cases x <;> cases y <;> simp only [pyLt, Option.isSome]
    exact pyLtL_isSome_symm _ _
termination_by x y => sizeOf x + sizeOf y

theorem pyLtL_isSome_symm : ∀ (xs ys : List PyVal),
    (pyLtL xs ys).isSome = (pyLtL ys xs).isSome
  | [], [] => by simp [pyLtL]
  | [], _ :: _ => by simp [pyLtL]
  | _ :: _, [] => by simp [pyLtL]
  | x :: xs, y :: ys => by
    simp only [pyLtL]
    rw [pyEq_symm y x]
    by_cases h : pyEq x y = true
    · simp only [h, if_true]
      exact pyLtL_isSome_symm xs ys
    · simp only [Bool.not_eq_true] at h
      simp only [h, Bool.false_eq_true, if_false]
      exact pyLt_isSome_symm x y
termination_by xs ys => sizeOf xs + sizeOf ys

end

/-
Asymmetry of strict Python `<`.
-/

mutual

theorem pyLt_asymm : ∀ (x y : PyVal),
    pyLt x y = some true → pyLt y x = some true → False
  | x, y => by
    intro h h2
    cases x <;> cases y <;> simp only [pyLt] at h h2 <;>
      try exact Option.noConfusion h
    · -- integers
      rename_i m n
      simp only [Option.some.injEq, decide_eq_true_eq] at h h2
      omega
    · -- strings
      rename_i a b
      simp only [Option.some.injEq, decide_eq_true_eq] at h h2
      exact absurd (h.trans h2) (lt_irrefl a)
    · -- lists
      rename_i xs ys
      exact pyLtL_asymm xs ys h h2
    · -- sets
      rename_i xs ys
      simp only [Option.some.injEq, Bool.and_eq_true, Bool.not_eq_eq_eq_not,
        Bool.not_true] at h h2
      rw [pyMemAll_symm ys xs] at h2
      rw [h.2] at h2
      exact Bool.false_ne_true h2.1
termination_by x y => sizeOf x + sizeOf y

theorem pyLtL_asymm : ∀ (xs ys : List PyVal),
    pyLtL xs ys = some true → pyLtL ys xs = some true → False
  | [], [] => by intro h _; simp [pyLtL] at h
  | [], _ :: _ => by intro _ h2; simp [pyLtL] at h2
  | _ :: _, [] => by intro h _; simp [pyLtL] at h
  | x :: xs, y :: ys => by
    intro h h2
    simp only [pyLtL] at h h2
    rw [pyEq_symm y x] at h2
    by_cases he : pyEq x y = true
    · simp only [he, if_true] at h h2
      exact pyLtL_asymm xs ys h h2
    · simp only [Bool.not_eq_true] at he
      simp only [he, Bool.false_eq_true, if_false] at h h2
      exact pyLt_asymm x y h h2
termination_by xs ys => sizeOf xs + sizeOf ys

end

/-
Transitivity of strict Python `<`.
-/

mutual

theorem pyLt_trans : ∀ (x y z : PyVal), pyLt x y = some true →
    pyLt y z = some true → pyLt x z = some true
  | x, y, z => by
    intro h1 h2
    cases x <;> cases y <;> simp only [pyLt] at h1 <;>
      try exact Option.noConfusion h1
    · -- integers
      cases z <;> simp only [pyLt] at h2 <;> try exact Option.noConfusion h2
      rename_i m n p
      simp only [pyLt, Option.some.injEq, decide_eq_true_eq] at h1 h2 ⊢
      omega
    · -- strings
      cases z <;> simp only [pyLt] at h2 <;> try exact Option.noConfusion h2
      rename_i a b c
      simp only [pyLt, Option.some.injEq, decide_eq_true_eq] at h1 h2 ⊢
      exact h1.trans h2
    · -- lists
      rename_i xs ys
      cases z <;> simp only [pyLt] at h2 <;> try exact Option.noConfusion h2
      rename_i zs
      simp only [pyLt]
      exact pyLtL_trans xs ys zs h1 h2
    · -- sets
      rename_i xs ys
      cases z <;> simp only [pyLt] at h2 <;> try exact Option.noConfusion h2
      rename_i zs
      simp only [pyLt, Option.some.injEq, Bool.and_eq_true,
        Bool.not_eq_eq_eq_not, Bool.not_true] at h1 h2 ⊢
      refine ⟨pyMemAll_trans xs ys zs h1.1 h2.1, ?_⟩
      cases hb : pyMemRevAll xs zs with
      | false => rfl
      | true =>
        exfalso
        have hzx : pyMemAll zs xs = true := by
          rw [pyMemAll_symm zs xs]; exact hb
        have hzy : pyMemAll zs ys = true := pyMemAll_trans zs xs ys hzx h1.1
        rw [pyMemAll_symm zs ys] at hzy
        rw [h2.2] at hzy
        exact Bool.false_ne_true hzy
termination_by x y z => sizeOf x + sizeOf y + sizeOf z

theorem pyLtL_trans : ∀ (xs ys zs : List PyVal), pyLtL xs ys = some true →
    pyLtL ys zs = some true → pyLtL xs zs = some true
  | [], ys, zs => by
    intro h1 h2
    cases ys with
    | nil => simp [pyLtL] at h1
    | cons y ys =>
      cases zs with
      | nil => simp [pyLtL] at h2
      | cons z zs => simp [pyLtL]
  | x :: xs, ys, zs => by
    intro h1 h2
    cases ys with
    | nil => simp [pyLtL] at h1
    | cons y ys =>
      cases zs with
      | nil => simp [pyLtL] at h2
      | cons z zs =>
        simp only [pyLtL] at h1 h2 ⊢
        by_cases e1 : pyEq x y = true <;> by_cases e2 : pyEq y z = true
        · have e3 : pyEq x z = true := pyEq_trans x y z e1 e2
          simp only [e1, e2, e3, if_true] at h1 h2 ⊢
          exact pyLtL_trans xs ys zs h1 h2
        · have e3 : pyEq x z = pyEq y z := pyEq_congr_l x y z e1
          simp only [Bool.not_eq_true] at e2
          simp only [e1, if_true, e2, Bool.false_eq_true, if_false,
            e3] at h1 h2 ⊢
          rw [pyLt_congr_left x y z e1]
          exact h2
        · have e3 : pyEq x y = pyEq x z := pyEq_congr_r y z x e2
          simp only [Bool.not_eq_true] at e1
          simp only [e2, if_true, e1, Bool.false_eq_true, if_false,
            ← e3] at h1 h2 ⊢
          rw [← pyLt_congr_right y z x e2]
          exact h1
        · have e3 : pyEq x z = false := by
            cases e3 : pyEq x z with
            | false => rfl
            | true =>
              exfalso
              have := pyLt_congr_left x z y e3
              rw [this] at h1
              simp only [Bool.not_eq_true] at e1 e2
              simp only [e1, e2, Bool.false_eq_true, if_false] at h1 h2
              exact pyLt_asymm y z h2 h1
          simp only [Bool.not_eq_true] at e1 e2
          simp only [e1, e2, e3, Bool.false_eq_true, if_false] at h1 h2 ⊢
          exact pyLt_trans x y z h1 h2
termination_by xs ys zs => sizeOf xs + sizeOf ys + sizeOf zs

end

/-
The betweenness property of Python comparisons: if `x < y`, `w` is
comparable with `y` but not below it, then `x` is comparable with `w`.
This is what makes a completed sort certify that all element pairs were
mutually orderable, even for pairs the sort never compared directly.
-/

mutual

theorem pyLt_between : ∀ (x y w : PyVal), pyLt x y = some true →
    pyLt w y = some false → (pyLt y w).isSome = true →
    (pyLt x w).isSome = true
  | x, y, w => by
    intro h1 h2 h3
    cases x <;> cases y <;> simp only [pyLt] at h1 <;>
      try exact Option.noConfusion h1
    · -- integers
      cases w <;> simp only [pyLt] at h2 <;> try exact Option.noConfusion h2
      simp [pyLt]
    · -- strings
      cases w <;> simp only [pyLt] at h2 <;> try exact Option.noConfusion h2
      simp [pyLt]
    · -- lists
      rename_i xs ys
      cases w <;> simp only [pyLt] at h2 h3 <;> try exact Option.noConfusion h2
      rename_i ws
      simp only [pyLt]
      exact pyLtL_between xs ys ws h1 h2 h3
    · -- sets
      cases w <;> simp only [pyLt] at h2 <;> try exact Option.noConfusion h2
      simp [pyLt]
termination_by x y w => sizeOf x + sizeOf y + sizeOf w

theorem pyLtL_between : ∀ (xs ys ws : List PyVal), pyLtL xs ys = some true →
    pyLtL ws ys = some false → (pyLtL ys ws).isSome = true →
    (pyLtL xs ws).isSome = true
  | [], ys, ws => by
    intro _ _ _
    cases ws <;> simp [pyLtL]
  | x :: xs, ys, ws => by
    intro h1 h2 h3
    cases ys with
    | nil => simp [pyLtL] at h1
    | cons y ys =>
      cases ws with
      | nil => simp [pyLtL]
      | cons w ws =>
        simp only [pyLtL] at h1 h2 h3 ⊢
        by_cases e1 : pyEq x y = true <;> by_cases e2 : pyEq w y = true
        · -- skip the equal heads on both sides
          have eyw : pyEq y w = true := by rw [pyEq_symm]; exact e2
          have exw : pyEq x w = true :=
            pyEq_trans x y w e1 eyw
          simp only [e1, e2, eyw, exw, if_true] at h1 h2 h3 ⊢
          exact pyLtL_between xs ys ws h1 h2 h3
        · have eyw : pyEq y w = false := by rw [pyEq_symm y w]
                                            simpa using e2
          have exw : pyEq x w = pyEq y w := pyEq_congr_l x y w e1
          simp only [Bool.not_eq_true] at e2
          simp only [e1, if_true, e2, eyw, exw, Bool.false_eq_true,
            if_false] at h1 h2 h3 ⊢
          rw [pyLt_congr_left x y w e1]
          exact h3
        · have eyw : pyEq y w = true := by rw [pyEq_symm]; exact e2
          have exw : pyEq x y = pyEq x w := pyEq_congr_r y w x eyw
          simp only [Bool.not_eq_true] at e1
          simp only [e2, eyw, if_true, e1, ← exw, Bool.false_eq_true,
            if_false] at h1 h2 h3 ⊢
          rw [← pyLt_congr_right y w x eyw]
          rw [h1]
          rfl
        · have eyw : pyEq y w = false := by rw [pyEq_symm y w]
                                            simpa using e2
          simp only [Bool.not_eq_true] at e1 e2
          simp only [e1, e2, eyw, Bool.false_eq_true, if_false] at h1 h2 h3 ⊢
          cases exw : pyEq x w with
          | true =>
            exfalso
            have := pyLt_congr_left x w y exw
            rw [this, h2] at h1
            exact Option.noConfusion h1 (fun h => Bool.false_ne_true h)
          | false =>
            simp only [exw, Bool.false_eq_true, if_false]
            exact pyLt_between x y w h1 h2 h3
termination_by xs ys ws => sizeOf xs + sizeOf ys + sizeOf ws

end

/-
Facts about the modelled `sorted`: a completed run returns an ascending
permutation, and a run fails exactly when the input holds two mutually
non-orderable elements.
-/

theorem insertO_nil (x : PyVal) : insertO x [] = some [x] := by
  simp [insertO]

theorem insertO_cons_none {x y : PyVal} (ys : List PyVal)
    (h : pyLt x y = none) : insertO x (y :: ys) = none := by
  simp [insertO, h]

theorem insertO_cons_lt {x y : PyVal} (ys : List PyVal)
    (h : pyLt x y = some true) : insertO x (y :: ys) = some (x :: y :: ys) := by
  simp [insertO, h]

theorem insertO_cons_ge {x y : PyVal} (ys : List PyVal)
    (h : pyLt x y = some false) :
    insertO x (y :: ys) = (insertO x ys).map (fun l => y :: l) := by
  simp [insertO, h]

theorem option_bool_eq_false {o : Option Bool} (h1 : o.isSome = true)
    (h2 : o ≠ some true) : o = some false := by
  cases o with
  | none => simp at h1
  | some b =>
    cases b with
    | false => rfl
    | true => exact absurd rfl h2

theorem orderable_symm {x y : PyVal} (h : orderable x y) : orderable y x := by
  unfold orderable at h ⊢
  rw [pyLt_isSome_symm]
  exact h

theorem orderable_of_lt {x y : PyVal} {b : Bool} (h : pyLt x y = some b) :
    orderable x y := by
  unfold orderable
  rw [h]
  rfl

theorem insertO_none {x : PyVal} : ∀ {l : List PyVal}, insertO x l = none →
    ∃ y ∈ l, pyLt x y = none := by
  intro l
  induction l with
  | nil => intro h; rw [insertO_nil] at h; exact Option.noConfusion h
  | cons y ys ih =>
    intro h
    cases hc : pyLt x y with
    | none => exact ⟨y, List.mem_cons_self y ys, hc⟩
    | some b =>
      cases b with
      | true => rw [insertO_cons_lt ys hc] at h; exact Option.noConfusion h
      | false =>
        rw [insertO_cons_ge ys hc] at h
        cases hi : insertO x ys with
        | none =>
          obtain ⟨z, hz, hzn⟩ := ih hi
          exact ⟨z, List.mem_cons_of_mem y hz, hzn⟩
        | some l3 =>
          rw [hi] at h
          exact Option.noConfusion h

theorem insertO_some_perm {x : PyVal} : ∀ {l l2 : List PyVal},
    insertO x l = some l2 → l2.Perm (x :: l) := by
  intro l
  induction l with
  | nil =>
    intro l2 h
    rw [insertO_nil] at h
    simp only [Option.some.injEq] at h
    rw [← h]
  | cons y ys ih =>
    intro l2 h
    cases hc : pyLt x y with
    | none => rw [insertO_cons_none ys hc] at h; exact Option.noConfusion h
    | some b =>
      cases b with
      | true =>
        rw [insertO_cons_lt ys hc] at h
        simp only [Option.some.injEq] at h
        rw [← h]
      | false =>
        rw [insertO_cons_ge ys hc] at h
        cases hi : insertO x ys with
        | none => rw [hi] at h; exact Option.noConfusion h
        | some l3 =>
          rw [hi] at h
          simp only [Option.map_some', Option.some.injEq] at h
          rw [← h]
          exact ((ih hi).cons y).trans (List.Perm.swap x y ys)

theorem insertO_orderable {x : PyVal} : ∀ {l l2 : List PyVal},
    l.Pairwise pyLe → l.Pairwise orderable → insertO x l = some l2 →
    ∀ y ∈ l, orderable x y := by
  intro l
  induction l with
  | nil => intro l2 _ _ _ y hy; exact absurd hy (List.not_mem_nil y)
  | cons y ys ih =>
    intro l2 hle hord h z hz
    rw [List.pairwise_cons] at hle hord
    cases hc : pyLt x y with
    | none => rw [insertO_cons_none ys hc] at h; exact Option.noConfusion h
    | some b =>
      rcases List.mem_cons.mp hz with rfl | hz2
      · exact orderable_of_lt hc
      cases b with
      | true =>
        -- x goes before y; y is not above the later z, so x and z compare
        have hyz : orderable y z := hord.1 z hz2
        have hzy : (pyLt z y).isSome = true := by
          rw [pyLt_isSome_symm]; exact hyz
        have hzyf : pyLt z y = some false :=
          option_bool_eq_false hzy (hle.1 z hz2)
        exact pyLt_between x y z hc hzyf hyz
      | false =>
        rw [insertO_cons_ge ys hc] at h
        cases hi : insertO x ys with
        | none => rw [hi] at h; exact Option.noConfusion h
        | some l3 => exact ih hle.2 hord.2 hi z hz2

theorem insertO_sorted {x : PyVal} : ∀ {l l2 : List PyVal},
    l.Pairwise pyLe → l.Pairwise orderable → insertO x l = some l2 →
    l2.Pairwise pyLe := by
  intro l
  induction l with
  | nil =>
    intro l2 _ _ h
    rw [insertO_nil] at h
    simp only [Option.some.injEq] at h
    rw [← h]
    exact List.pairwise_singleton pyLe x
  | cons y ys ih =>
    intro l2 hle hord h
    cases hc : pyLt x y with
    | none => rw [insertO_cons_none ys hc] at h; exact Option.noConfusion h
    | some b =>
      cases b with
      | true =>
        rw [insertO_cons_lt ys hc] at h
        simp only [Option.some.injEq] at h
        rw [← h, List.pairwise_cons]
        refine ⟨?_, hle⟩
        intro z hz h2
        rcases List.mem_cons.mp hz with rfl | hz2
        · exact pyLt_asymm x z hc h2
        · -- z sits after y; z < x < y would contradict y before z
          rw [List.pairwise_cons] at hle
          exact hle.1 z hz2 (pyLt_trans z x y h2 hc)
      | false =>
        rw [insertO_cons_ge ys hc] at h
        cases hi : insertO x ys with
        | none => rw [hi] at h; exact Option.noConfusion h
        | some l3 =>
          rw [hi] at h
          simp only [Option.map_some', Option.some.injEq] at h
          rw [← h]
          rw [List.pairwise_cons] at hle hord
          rw [List.pairwise_cons]
          refine ⟨?_, ih hle.2 hord.2 hi⟩
          intro z hz
          have hz3 : z ∈ x :: ys := (insertO_some_perm hi).mem_iff.mp hz
          rcases List.mem_cons.mp hz3 with rfl | hz4
          · intro h2
            rw [hc] at h2
            exact Option.noConfusion h2 (fun h5 => Bool.false_ne_true h5)
          · exact hle.1 z hz4

theorem sortGo_nil (acc : List PyVal) : sortGo acc [] = some acc := by
  simp [sortGo]

theorem sortGo_cons_none {x : PyVal} {acc : List PyVal} (xs : List PyVal)
    (h : insertO x acc = none) : sortGo acc (x :: xs) = none := by
  simp [sortGo, h]

theorem sortGo_cons_some {x : PyVal} {acc acc2 : List PyVal}
    (xs : List PyVal) (h : insertO x acc = some acc2) :
    sortGo acc (x :: xs) = sortGo acc2 xs := by
  simp [sortGo, h]

theorem orderable_symmetric : Symmetric orderable :=
  fun _ _ h => orderable_symm h

theorem sortGo_none_spec : ∀ (rest acc : List PyVal),
    sortGo acc rest = none → ¬ (acc ++ rest).Pairwise orderable := by
  intro rest
  induction rest with
  | nil =>
    intro acc h
    rw [sortGo_nil] at h
    exact Option.noConfusion h
  | cons x xs ih =>
    intro acc h hP
    cases hi : insertO x acc with
    | none =>
      obtain ⟨y, hy, hn⟩ := insertO_none hi
      rw [List.pairwise_append] at hP
      have h1 : orderable y x := hP.2.2 y hy x (List.mem_cons_self x xs)
      have h2 : orderable x y := orderable_symm h1
      unfold orderable at h2
      rw [hn] at h2
      simp at h2
    | some acc2 =>
      rw [sortGo_cons_some xs hi] at h
      refine ih acc2 h ?_
      have hp1 : acc2.Perm (x :: acc) := insertO_some_perm hi
      have hperm : (acc2 ++ xs).Perm (acc ++ x :: xs) := by
        refine (hp1.append_right xs).trans ?_
        exact List.perm_middle.symm
      exact (List.Perm.pairwise_iff (fun h => orderable_symm h) hperm).mpr hP

theorem sortGo_some_spec : ∀ (rest acc out : List PyVal),
    sortGo acc rest = some out → acc.Pairwise pyLe →
    acc.Pairwise orderable →
    out.Perm (acc ++ rest) ∧ out.Pairwise pyLe ∧
      (acc ++ rest).Pairwise orderable := by
  intro rest
  induction rest with
  | nil =>
    intro acc out h hle hord
    rw [sortGo_nil] at h
    simp only [Option.some.injEq] at h
    rw [← h, List.append_nil]
    exact ⟨List.Perm.refl acc, hle, hord⟩
  | cons x xs ih =>
    intro acc out h hle hord
    cases hi : insertO x acc with
    | none => rw [sortGo_cons_none xs hi] at h; exact Option.noConfusion h
    | some acc2 =>
      rw [sortGo_cons_some xs hi] at h
      have hxall : ∀ y ∈ acc, orderable x y := insertO_orderable hle hord hi
      have hp1 : acc2.Perm (x :: acc) := insertO_some_perm hi
      have hord2 : acc2.Pairwise orderable := by
        refine (List.Perm.pairwise_iff (fun h => orderable_symm h) hp1).mpr ?_
        rw [List.pairwise_cons]
        exact ⟨hxall, hord⟩
      have hle2 : acc2.Pairwise pyLe := insertO_sorted hle hord hi
      obtain ⟨p1, p2, p3⟩ := ih acc2 out h hle2 hord2
      have hperm : (acc2 ++ xs).Perm (acc ++ x :: xs) := by
        refine (hp1.append_right xs).trans ?_
        exact List.perm_middle.symm
      exact ⟨p1.trans hperm, p2,
        (List.Perm.pairwise_iff (fun h => orderable_symm h) hperm).mp p3⟩

theorem sortedO_none_iff (l : List PyVal) :
    sortedO l = none ↔ ¬ l.Pairwise orderable := by
  constructor
  · intro h
    have := sortGo_none_spec l [] h
    simpa using this
  · intro h
    cases hs : sortedO l with
    | none => rfl
    | some out =>
      exfalso
      obtain ⟨_, _, p3⟩ :=
        sortGo_some_spec l [] out hs (List.Pairwise.nil) (List.Pairwise.nil)
      exact h (by simpa using p3)

theorem sortedO_some_spec {l out : List PyVal} (h : sortedO l = some out) :
    out.Perm l ∧ out.Pairwise pyLe ∧ l.Pairwise orderable := by
  have := sortGo_some_spec l [] out h (List.Pairwise.nil) (List.Pairwise.nil)
  simpa using this

theorem insertO_append {x : PyVal} : ∀ (l : List PyVal),
    (∀ y ∈ l, pyLt x y = some false) → insertO x l = some (l ++ [x]) := by
  intro l
  induction l with
  | nil => intro _; simp [insertO_nil]
  | cons y ys ih =>
    intro h
    rw [insertO_cons_ge ys (h y (List.mem_cons_self y ys))]
    rw [ih (fun z hz => h z (List.mem_cons_of_mem y hz))]
    rfl

theorem sortGo_sorted_id : ∀ (l2 l1 : List PyVal),
    (l1 ++ l2).Pairwise pyLe → (l1 ++ l2).Pairwise orderable →
    sortGo l1 l2 = some (l1 ++ l2) := by
  intro l2
  induction l2 with
  | nil => intro l1 _ _; rw [List.append_nil]; exact sortGo_nil l1
  | cons x xs ih =>
    intro l1 hle hord
    have hx : ∀ y ∈ l1, pyLt x y = some false := by
      intro y hy
      rw [List.pairwise_append] at hle hord
      have h1 : pyLe y x := hle.2.2 y hy x (List.mem_cons_self x xs)
      have h2 : orderable y x := hord.2.2 y hy x (List.mem_cons_self x xs)
      have h3 : (pyLt x y).isSome = true := by
        rw [pyLt_isSome_symm]; exact h2
      exact option_bool_eq_false h3 h1
    rw [sortGo_cons_some xs (insertO_append l1 hx)]
    have heq : (l1 ++ [x]) ++ xs = l1 ++ x :: xs := by
      rw [List.append_assoc]; rfl
    rw [← heq] at hle hord ⊢
    exact ih (l1 ++ [x]) hle hord

theorem sortedO_of_sorted {l : List PyVal} (h1 : l.Pairwise pyLe)
    (h2 : l.Pairwise orderable) : sortedO l = some l := by
  have := sortGo_sorted_id l [] (by simpa using h1) (by simpa using h2)
  simpa using this

theorem sortEntries_cons_none_iff (k : String) (v : PyVal)
    (es : List (String × PyVal)) :
    sortEntries ((k, v) :: es) = none ↔
      sort_internal_lists v = none ∨ sortEntries es = none := by
  cases h1 : sort_internal_lists v <;> cases h2 : sortEntries es <;>
    simp [sortEntries, h1, h2]

mutual

theorem sil_none_iff : ∀ (v : PyVal), sort_internal_lists v = none ↔
    ∃ u ∈ sortableUnits v, ¬ u.Pairwise orderable
  | .int n => by simp [sort_internal_lists, sortableUnits]
  | .str s => by simp [sort_internal_lists, sortableUnits]
  | .list xs => by
    simp only [sort_internal_lists, sortableUnits, Option.map_eq_none',
      List.mem_singleton]
    rw [sortedO_none_iff]
    constructor
    · intro h; exact ⟨xs, rfl, h⟩
    · rintro ⟨u, rfl, h⟩; exact h
  | .set xs => by
    simp only [sort_internal_lists, sortableUnits, Option.map_eq_none',
      List.mem_singleton]
    rw [sortedO_none_iff]
    constructor
    · intro h; exact ⟨xs, rfl, h⟩
    · rintro ⟨u, rfl, h⟩; exact h
  | .dict es => by
    simp only [sort_internal_lists, sortableUnits, Option.map_eq_none']
    exact sortEntries_none_iff es
termination_by v => sizeOf v

theorem sortEntries_none_iff : ∀ (es : List (String × PyVal)),
    sortEntries es = none ↔
      ∃ u ∈ unitsOfEntries es, ¬ u.Pairwise orderable
  | [] => by simp [sortEntries, unitsOfEntries]
  | (k, v) :: es => by
    rw [sortEntries_cons_none_iff k v es, sil_none_iff v,
      sortEntries_none_iff es]
    simp only [unitsOfEntries, List.mem_append]
    constructor
    · rintro (⟨u, hu, hb⟩ | ⟨u, hu, hb⟩)
      · exact ⟨u, Or.inl hu, hb⟩
      · exact ⟨u, Or.inr hu, hb⟩
    · rintro ⟨u, hu | hu, hb⟩
      · exact Or.inl ⟨u, hu, hb⟩
      · exact Or.inr ⟨u, hu, hb⟩
termination_by es => sizeOf es

end

/-
Success-side description of `sort_internal_lists` on dicts: entry count,
keys and their order are untouched; each value is rewritten to its own
normalised form.
-/

theorem sortEntries_spec : ∀ (es es2 : List (String × PyVal)),
    sortEntries es = some es2 →
    es2.map Prod.fst = es.map Prod.fst ∧
      List.Forall₂
        (fun e e2 => e.1 = e2.1 ∧ sort_internal_lists e.2 = some e2.2)
        es es2 := by
  intro es
  induction es with
  | nil =>
    intro es2 h
    simp only [sortEntries, Option.some.injEq] at h
    rw [← h]
    exact ⟨rfl, List.Forall₂.nil⟩
  | cons e es ih =>
    intro es2 h
    obtain ⟨k, v⟩ := e
    cases h1 : sort_internal_lists v with
    | none => rw [sortEntries, h1] at h; simp at h
    | some w =>
      cases h2 : sortEntries es with
      | none => rw [sortEntries, h1, h2] at h; simp at h
      | some rest =>
        rw [sortEntries, h1, h2] at h
        simp only [Option.some.injEq] at h
        rw [← h]
        obtain ⟨ihk, ihf⟩ := ih rest h2
        refine ⟨?_, List.Forall₂.cons ⟨rfl, h1⟩ ihf⟩
        simp only [List.map_cons, ihk]

/-
Lookup structure of `dict(collections.ChainMap(*ds))`: the materialised
dict binds exactly the keys occurring in some member, each to its value in
the first member that contains it.
-/

theorem lookupKey_mem {k : String} : ∀ {m : List (String × PyVal)} {v : PyVal},
    lookupKey k m = some v → k ∈ m.map Prod.fst := by
  intro m
  induction m with
  | nil => intro v h; simp [lookupKey] at h
  | cons e es ih =>
    intro v h
    obtain ⟨a, w⟩ := e
    rw [lookupKey] at h
    by_cases ha : (a == k) = true
    · simp only [beq_iff_eq] at ha
      simp [ha]
    · simp only [ha, Bool.false_eq_true, if_false] at h
      · simp only [List.map_cons, List.mem_cons]
        exact Or.inr (ih h)

theorem dedupKeys_mem (a : String) : ∀ (l : List String),
    a ∈ dedupKeys l ↔ a ∈ l := by
  intro l
  induction l with
  | nil => simp [dedupKeys]
  | cons k ks ih =>
    by_cases ha : a = k
    · simp [dedupKeys, ha]
    · simp [dedupKeys, List.mem_filter, ha, ih]

theorem lookupKey_filterMap (k : String) (ms : List (List (String × PyVal))) :
    ∀ (K : List String),
    lookupKey k (K.filterMap
        (fun k2 => (chainLookup k2 ms).map (fun v => (k2, v)))) =
      if k ∈ K then chainLookup k ms else none := by
  intro K
  induction K with
  | nil => simp [lookupKey]
  | cons k2 K ih =>
    cases hc : chainLookup k2 ms with
    | none =>
      rw [List.filterMap_cons]
      simp only [hc, Option.map_none']
      rw [ih]
      by_cases hk : k = k2
      · subst hk
        simp [hc, List.mem_cons]
      · simp [List.mem_cons, hk]
    | some v =>
      rw [List.filterMap_cons]
      simp only [hc, Option.map_some']
      rw [lookupKey]
      by_cases hk : k2 = k
      · simp only [hk, beq_self_eq_true, if_true]
        rw [← hk, hc]
        simp [List.mem_cons]
      · have : (k2 == k) = false := by simpa using hk
        simp only [this, Bool.false_eq_true, if_false]
        rw [ih]
        have hne : ¬k = k2 := fun h => hk h.symm
        simp [List.mem_cons, hne]

theorem chainLookup_isSome_mem_keys (k : String) :
    ∀ (ms : List (List (String × PyVal))),
    (chainLookup k ms).isSome = true → ∃ m ∈ ms, k ∈ m.map Prod.fst := by
  intro ms
  induction ms with
  | nil => intro h; simp [chainLookup] at h
  | cons m ms ih =>
    intro h
    rw [chainLookup] at h
    cases hm : lookupKey k m with
    | none =>
      rw [hm] at h
      obtain ⟨m2, hm2, hk⟩ := ih h
      exact ⟨m2, List.mem_cons_of_mem m hm2, hk⟩
    | some v =>
      exact ⟨m, List.mem_cons_self m ms, lookupKey_mem hm⟩

theorem lookupKey_dict_of_chainMap (k : String)
    (ms : List (List (String × PyVal))) :
    lookupKey k (dict_of_chainMap ms) = chainLookup k ms := by
  unfold dict_of_chainMap
  rw [lookupKey_filterMap]
  cases hc : chainLookup k ms with
  | none => simp
  | some v =>
    have hk : ∃ m ∈ ms, k ∈ m.map Prod.fst := by
      refine chainLookup_isSome_mem_keys k ms ?_
      rw [hc]; rfl
    obtain ⟨m, hm, hkm⟩ := hk
    have : k ∈ (ms.reverse.map (fun m2 => m2.map Prod.fst)).flatten := by
      rw [List.mem_flatten]
      exact ⟨m.map Prod.fst,
        List.mem_map_of_mem _ (List.mem_reverse.mpr hm), hkm⟩
    rw [if_pos ((dedupKeys_mem k _).mpr this)]

theorem chainLookup_skip (k : String) :
    ∀ (pre : List (List (String × PyVal)))
      (ms : List (List (String × PyVal))),
    (∀ m ∈ pre, lookupKey k m = none) →
    chainLookup k (pre ++ ms) = chainLookup k ms := by
  intro pre
  induction pre with
  | nil => intro ms _; rfl
  | cons m pre ih =>
    intro ms h
    rw [List.cons_append, chainLookup, h m (List.mem_cons_self m pre)]
    exact ih ms (fun m2 hm2 => h m2 (List.mem_cons_of_mem m hm2))

/-
Helper computations for the folding paths of `parallel_call` and for the
other embedded utilities.
-/

theorem mapM_asListElems (f : List PyVal → PyVal) (g : PyVal → List PyVal) :
    ∀ (args : List PyVal), (∀ a ∈ args, f [a] = PyVal.list (g a)) →
    (args.map (fun a => f [a])).mapM asListElems = some (args.map g) := by
  intro args
  induction args with
  | nil => intro _; rfl
  | cons a as ih =>
    intro h
    simp only [List.map_cons, List.mapM_cons]
    rw [h a (List.mem_cons_self a as),
      ih (fun b hb => h b (List.mem_cons_of_mem a hb))]
    rfl

theorem mapM_asDictEntries (f : List PyVal → PyVal)
    (g : PyVal → List (String × PyVal)) :
    ∀ (args : List PyVal), (∀ a ∈ args, f [a] = PyVal.dict (g a)) →
    (args.map (fun a => f [a])).mapM asDictEntries = some (args.map g) := by
  intro args
  induction args with
  | nil => intro _; rfl
  | cons a as ih =>
    intro h
    simp only [List.map_cons, List.mapM_cons]
    rw [h a (List.mem_cons_self a as),
      ih (fun b hb => h b (List.mem_cons_of_mem a hb))]
    rfl

theorem send_loop_spec (post : String → Bool) :
    ∀ (us : List String) (acc : Bool),
    send_loop post us acc = (acc && us.all post, us) := by
  intro us
  induction us with
  | nil => intro acc; simp [send_loop]
  | cons u us ih =>
    intro acc
    simp only [send_loop, ih (acc && post u), List.all_cons]
    rw [Bool.and_assoc]

theorem hashLoop_eq_foldl (alg : HashAlgo) (bs : Nat) (hbs : 0 < bs) :
    ∀ (content : List Nat) (s : alg.State),
    hashLoop alg bs s content = (chunksOf bs content).foldl alg.update s
  | [], s => by simp [hashLoop, chunksOf]
  | c :: cs, s => by
    have hne : ¬bs = 0 := Nat.pos_iff_ne_zero.mp hbs
    rw [hashLoop, chunksOf]
    simp only [hne, if_false]
    rw [List.foldl_cons]
    exact hashLoop_eq_foldl alg bs hbs ((c :: cs).drop bs) _
termination_by content s => content.length
decreasing_by
  simp only [List.length_drop, List.length_cons]
  omega

theorem chunksOf_flatten (bs : Nat) (hbs : 0 < bs) :
    ∀ (l : List Nat), (chunksOf bs l).flatten = l
  | [] => by simp [chunksOf]
  | c :: cs => by
    have hne : ¬bs = 0 := Nat.pos_iff_ne_zero.mp hbs
    rw [chunksOf]
    simp only [hne, if_false, List.flatten_cons]
    rw [chunksOf_flatten bs hbs ((c :: cs).drop bs)]
    exact List.take_append_drop bs (c :: cs)
termination_by l => l.length
decreasing_by
  simp only [List.length_drop, List.length_cons]
  omega

/-
Claims.
-/

theorem not_pairwise_orderable_iff (u : List PyVal) :
    ¬ u.Pairwise orderable ↔
      ∃ x y, List.Sublist [x, y] u ∧ ¬ orderable x y := by
  rw [List.pairwise_iff_forall_sublist]
  constructor
  · intro h
    by_contra h2
    push_neg at h2
    exact h (fun {a b} hs => h2 a b hs)
  · rintro ⟨x, y, hs, hxy⟩ h
    exact hxy (h hs)

theorem parallel_call_plain_eq (f : List PyVal → PyVal) (args : List PyVal)
    (ps : Nat) :
    parallel_call f args none false false false ps =
      some (PyVal.list (args.map (fun a => f [a]))) := rfl

theorem parallel_call_fold_list_eq (f : List PyVal → PyVal)
    (args : List PyVal) (ps : Nat) :
    parallel_call f args none true false false ps =
      ((args.map (fun a => f [a])).mapM asListElems).map
        (fun ls => PyVal.list ls.flatten) := rfl

theorem parallel_call_fold_dict_eq (f : List PyVal → PyVal)
    (args : List PyVal) (ps : Nat) :
    parallel_call f args none false true false ps =
      ((args.map (fun a => f [a])).mapM asDictEntries).map
        (fun ds => PyVal.dict (dict_of_chainMap ds)) := rfl

/-- C2: with no repeatable args, no folding and no starmap, `parallel_call`
returns the per-item results `[f(a) for a in args]` in exactly the input
order for any pool size at least one; the pool only bounds concurrency and
`gevent.pool.Pool.map` delivers results positionally, so the outcome does
not depend on completion order. -/
theorem c2_parallel_call_preserves_order (f : List PyVal → PyVal)
    (args : List PyVal) (pool_size : Nat) (h : 1 ≤ pool_size) :
    parallel_call f args none false false false pool_size =
      some (PyVal.list (args.map (fun a => f [a]))) :=
  parallel_call_plain_eq f args pool_size

/-- C2 witness: doubling over `[1, 2, 3, 4, 5]` with the default pool size
32 gives `[2, 4, 6, 8, 10]`. -/
theorem c2_witness :
    1 ≤ 32 ∧
    parallel_call pyDouble
        [.int 1, .int 2, .int 3, .int 4, .int 5] none false false false 32 =
      some (PyVal.list [.int 2, .int 4, .int 6, .int 8, .int 10]) :=
  ⟨by norm_num, by
    rw [c2_parallel_call_preserves_order pyDouble _ 32 (by norm_num)]
    rfl⟩

/-- C3: with `fold_list` set and every per-item result a list, the return
value is the concatenation of the per-item result lists in input order. -/
theorem c3_fold_list_concat (f : List PyVal → PyVal) (g : PyVal → List PyVal)
    (args : List PyVal) (pool_size : Nat)
    (h : ∀ a ∈ args, f [a] = PyVal.list (g a)) :
    parallel_call f args none true false false pool_size =
      some (PyVal.list (args.map g).flatten) := by
  rw [parallel_call_fold_list_eq, mapM_asListElems f g args h]
  rfl

/-- C3 witness: the identity function over `[[1], [2, 3], []]` with
`fold_list` gives `[1, 2, 3]`. -/
theorem c3_witness :
    (∀ a ∈ [PyVal.list [.int 1], PyVal.list [.int 2, .int 3],
        PyVal.list []], pyIdentity [a] = PyVal.list (pyElems a)) ∧
    parallel_call pyIdentity
        [.list [.int 1], .list [.int 2, .int 3], .list []] none
        true false false 32 =
      some (PyVal.list [.int 1, .int 2, .int 3]) := by
  have hp : ∀ a ∈ [PyVal.list [.int 1], PyVal.list [.int 2, .int 3],
      PyVal.list []], pyIdentity [a] = PyVal.list (pyElems a) := by
    intro a ha
    simp only [List.mem_cons, List.not_mem_nil, or_false] at ha
    rcases ha with rfl | rfl | rfl <;> rfl
  refine ⟨hp, ?_⟩
  rw [c3_fold_list_concat pyIdentity pyElems _ 32 hp]
  rfl

/-- C10: `parallel_call` only tests `repeatable_args` for truthiness, so an
empty sequence behaves exactly like the omitted `None` default, whatever
the remaining flags are. -/
theorem c10_empty_repeatable_args (f : List PyVal → PyVal)
    (args : List PyVal) (fold_list fold_dict force_starmap : Bool)
    (pool_size : Nat) :
    parallel_call f args (some []) fold_list fold_dict force_starmap
        pool_size =
      parallel_call f args none fold_list fold_dict force_starmap
        pool_size := rfl

/-- C8: with an empty application token the notification sender returns
failure and posts to nobody. -/
theorem c8_no_token_no_post (cfg : PushoverConfig) (post : String → Bool)
    (h : cfg.app_token = "") :
    send_push_notification cfg post = (false, []) := by
  simp [send_push_notification, h]

/-- C8 witness: empty token, two configured users, a network that would
succeed: nothing is posted and the call reports failure. -/
theorem c8_witness :
    ({ app_token := "", user_tokens := "u1,u2" } : PushoverConfig).app_token
        = "" ∧
    send_push_notification { app_token := "", user_tokens := "u1,u2" }
        (fun _ => true) = (false, []) :=
  ⟨rfl, c8_no_token_no_post { app_token := "", user_tokens := "u1,u2" }
    (fun _ => true) rfl⟩

/-- C9: with credentials configured, the sender posts to every configured
recipient, in order, regardless of earlier failures, and returns true
exactly when every post succeeded. -/
theorem c9_attempts_all_recipients (cfg : PushoverConfig)
    (post : String → Bool) (h1 : cfg.app_token ≠ "")
    (h2 : pushover_users cfg ≠ []) :
    send_push_notification cfg post =
      ((pushover_users cfg).all post, pushover_users cfg) := by
  unfold send_push_notification
  simp only [h1, if_false, h2, if_false, send_loop_spec, Bool.true_and]

/-- C9 witness: the post to the first user fails, the second succeeds; both
users are attempted and the aggregate result is failure. -/
theorem c9_witness :
    ({ app_token := "t", user_tokens := "u1,u2" } : PushoverConfig).app_token
        ≠ "" ∧
    pushover_users { app_token := "t", user_tokens := "u1,u2" } ≠ [] ∧
    send_push_notification { app_token := "t", user_tokens := "u1,u2" }
        (fun u => u == "u2") = (false, ["u1", "u2"]) := by
  refine ⟨by decide, by decide, ?_⟩
  rw [c9_attempts_all_recipients { app_token := "t", user_tokens := "u1,u2" }
    (fun u => u == "u2") (by decide) (by decide)]
  decide

/-- C7: hashing a missing file returns the empty string plus a warning and
cannot raise (the embedding is total); hashing an existing file feeds its
contents to the configured digest in `block_size`-byte read chunks and
returns the hex output of the digest, the chunks reassembling exactly the file
contents. -/
theorem c7_get_file_hash_spec (alg : HashAlgo) (content : List Nat)
    (block_size : Nat) (h : 0 < block_size) :
    get_file_hash alg none block_size =
      ("", ["Unable to find file, no hashes generated"]) ∧
    get_file_hash alg (some content) block_size =
      (alg.hexdigest
        ((chunksOf block_size content).foldl alg.update alg.init), []) ∧
    (chunksOf block_size content).flatten = content := by
  refine ⟨rfl, ?_, chunksOf_flatten block_size h content⟩
  simp only [get_file_hash]
  rw [hashLoop_eq_foldl alg block_size h content alg.init]

/-- C7 witness: the byte-collecting digest over contents `[1, 2, 3]` with
block size 2. -/
theorem c7_witness :
    0 < 2 ∧
    (get_file_hash concatHash none 2 =
      ("", ["Unable to find file, no hashes generated"]) ∧
    get_file_hash concatHash (some [1, 2, 3]) 2 =
      (concatHash.hexdigest
        ((chunksOf 2 [1, 2, 3]).foldl concatHash.update concatHash.init),
        []) ∧
    (chunksOf 2 [1, 2, 3]).flatten = [1, 2, 3]) :=
  ⟨by norm_num, c7_get_file_hash_spec concatHash [1, 2, 3] 2 (by norm_num)⟩

/-- C1 counterexample: with `fold_dict`, two results sharing the key `"a"`
fold to the value of the first item, not the second: the claimed
later-item override does not hold. -/
theorem c1_counterexample :
    parallel_call pyIdentity
        [.dict [("a", .int 1)], .dict [("a", .int 2)]] none false true
        false 32 =
      some (PyVal.dict [("a", PyVal.int 1)]) ∧
    PyVal.int 1 ≠ PyVal.int 2 := by
  constructor
  · rfl
  · intro h
    simp at h

/-- C1 (amended): with `fold_dict` set and every per-item result a dict,
the folded dict maps each key to its value in the earliest item (in input
order) whose result contains that key — `dict(ChainMap(*results))` gives
earlier items precedence. -/
theorem c1_fold_dict_earliest_wins (f : List PyVal → PyVal)
    (g : PyVal → List (String × PyVal)) (pre post : List PyVal) (a : PyVal)
    (pool_size : Nat) (k : String)
    (h : ∀ b ∈ pre ++ a :: post, f [b] = PyVal.dict (g b))
    (hpre : ∀ b ∈ pre, lookupKey k (g b) = none)
    (ha : (lookupKey k (g a)).isSome = true) :
    ∃ r, parallel_call f (pre ++ a :: post) none false true false pool_size
        = some (PyVal.dict r) ∧
      lookupKey k r = lookupKey k (g a) := by
  refine ⟨dict_of_chainMap ((pre ++ a :: post).map g), ?_, ?_⟩
  · rw [parallel_call_fold_dict_eq,
      mapM_asDictEntries f g (pre ++ a :: post) h]
    rfl
  · rw [lookupKey_dict_of_chainMap, List.map_append, List.map_cons]
    rw [chainLookup_skip k (List.map g pre) (g a :: List.map g post) ?_]
    · cases hl : lookupKey k (g a) with
      | none => rw [hl] at ha; simp at ha
      | some v => simp [chainLookup, hl]
    · intro m hm
      obtain ⟨b, hb, rfl⟩ := List.mem_map.mp hm
      exact hpre b hb

/-- C1 witness: three dict results; the key `"a"` is absent from the first
item, so the folded value for `"a"` comes from the second item even though
the third also binds it. -/
theorem c1_witness :
    ∃ r, parallel_call pyIdentity
        ([.dict [("b", .int 0)]] ++ PyVal.dict [("a", .int 1)] ::
          [.dict [("a", .int 2)]]) none false true false 32
        = some (PyVal.dict r) ∧
      lookupKey "a" r = lookupKey "a" (pyEntries (.dict [("a", .int 1)])) :=
  c1_fold_dict_earliest_wins pyIdentity pyEntries
    [.dict [("b", .int 0)]] [.dict [("a", .int 2)]]
    (.dict [("a", .int 1)]) 32 "a"
    (by
      intro b hb
      simp only [List.cons_append, List.nil_append, List.mem_cons,
        List.not_mem_nil, or_false] at hb
      rcases hb with rfl | rfl | rfl <;> rfl)
    (by
      intro b hb
      simp only [List.mem_cons, List.not_mem_nil, or_false] at hb
      rcases hb with rfl
      rfl)
    (by rfl)

/-- C5: a successfully normalised dict is again a dict with exactly the
same keys in the same entry order, every value replaced by its own
normalised form. -/
theorem c5_dict_keys_order_preserved (es : List (String × PyVal)) (r : PyVal)
    (h : sort_internal_lists (PyVal.dict es) = some r) :
    ∃ es2, r = PyVal.dict es2 ∧ es2.map Prod.fst = es.map Prod.fst ∧
      List.Forall₂
        (fun e e2 => e.1 = e2.1 ∧ sort_internal_lists e.2 = some e2.2)
        es es2 := by
  simp only [sort_internal_lists] at h
  cases hs : sortEntries es with
  | none => rw [hs] at h; simp at h
  | some es2 =>
    rw [hs] at h
    simp only [Option.map_some', Option.some.injEq] at h
    obtain ⟨hk, hf⟩ := sortEntries_spec es es2 hs
    exact ⟨es2, h.symm, hk, hf⟩

/-- C5 witness: a one-entry dict whose value is an unsorted list. -/
theorem c5_witness :
    ∃ es2, PyVal.dict [("a", PyVal.list [.int 1, .int 2])] = PyVal.dict es2 ∧
      es2.map Prod.fst =
        ([("a", PyVal.list [.int 2, .int 1])].map Prod.fst) ∧
      List.Forall₂
        (fun e e2 => e.1 = e2.1 ∧ sort_internal_lists e.2 = some e2.2)
        [("a", PyVal.list [.int 2, .int 1])] es2 :=
  c5_dict_keys_order_preserved [("a", PyVal.list [.int 2, .int 1])]
    (PyVal.dict [("a", PyVal.list [.int 1, .int 2])])
    (by simp [sort_internal_lists, sortEntries, sortedO, sortGo, insertO,
      pyLt])

/-- C4: on a list of mutually comparable (pairwise orderable) elements,
`sort_internal_lists` returns the ascending sort — a permutation of the
input that carries no strict inversion — and it is idempotent on such
input: sorting the result again returns it unchanged. -/
theorem c4_sort_ascending_idempotent (xs : List PyVal)
    (h : xs.Pairwise orderable) :
    ∃ ys, sort_internal_lists (PyVal.list xs) = some (PyVal.list ys) ∧
      ys.Perm xs ∧ ys.Pairwise pyLe ∧
      sort_internal_lists (PyVal.list ys) = some (PyVal.list ys) := by
  cases hs : sortedO xs with
  | none => exact absurd h ((sortedO_none_iff xs).mp hs)
  | some ys =>
    obtain ⟨hperm, hle, _⟩ := sortedO_some_spec hs
    have hord : ys.Pairwise orderable :=
      (List.Perm.pairwise_iff (fun h2 => orderable_symm h2) hperm).mpr h
    refine ⟨ys, ?_, hperm, hle, ?_⟩
    · simp only [sort_internal_lists, hs, Option.map_some']
    · simp only [sort_internal_lists, sortedO_of_sorted hle hord,
        Option.map_some']

/-- C4 witness: sorting `[3, 1, 2]`. -/
theorem c4_witness :
    ∃ ys, sort_internal_lists (PyVal.list [.int 3, .int 1, .int 2]) =
        some (PyVal.list ys) ∧
      ys.Perm [PyVal.int 3, PyVal.int 1, PyVal.int 2] ∧
      ys.Pairwise pyLe ∧
      sort_internal_lists (PyVal.list ys) = some (PyVal.list ys) :=
  c4_sort_ascending_idempotent [.int 3, .int 1, .int 2]
    (by simp [List.pairwise_cons, orderable, pyLt])

/-- C6 counterexample: the input `[[1, "a"]]` contains a nested sequence
with mutually non-orderable elements, yet `sort_internal_lists` returns
normally — the function never examines containers nested inside a
sequence, so the claimed failure condition is wrong. -/
theorem c6_counterexample :
    sort_internal_lists
        (PyVal.list [PyVal.list [PyVal.int 1, PyVal.str "a"]]) =
      some (PyVal.list [PyVal.list [PyVal.int 1, PyVal.str "a"]]) ∧
    ¬ orderable (PyVal.int 1) (PyVal.str "a") := by
  constructor
  · rfl
  · simp [orderable, pyLt]

/-- C6 (amended): `sort_internal_lists` fails, with the comparison error of
`sorted` surfaced to the caller, exactly when one of the collections it
actually sorts — the input itself if it is a list or set, or a list or set
reached from the input through dict values only — contains two mutually
non-orderable elements; on every other input it returns normally.
Containers nested inside a list or set are not examined. -/
theorem c6_failure_characterization (v : PyVal) :
    sort_internal_lists v = none ↔
      ∃ u ∈ sortableUnits v, ∃ x y,
        List.Sublist [x, y] u ∧ ¬ orderable x y := by
  rw [sil_none_iff v]
  exact exists_congr fun u => and_congr_right fun _ =>
    not_pairwise_orderable_iff u
